import Mathlib

/-!
Shallow embedding of the cheat-engine-rs memory scanner.

The repository ships two source files under src/: the CLI layer
(src/cli/mod.rs) and the entry point (src/main.rs).  The core engine
(crate::core::scan and crate::core::mem) is referenced but its source is
not part of the bundle, so the Value Codec and the Scan Engine below are
modelled from the specification (sections 3, 4.1, 4.3 of spec.md); every
definition modelled that way carries a doc comment saying so.  The CLI
helpers (parse_address, parse_value_type, the read-size default) are
translated directly from src/cli/mod.rs.

Machine strings are modelled as lists of unicode scalar values
(List Char); byte buffers as lists of naturals below 256 (List Nat).
-/

/-- Error kinds of the core, from spec.md section 7. -/
inductive CoreError where
  | ProcessNotFound
  | PermissionDenied
  | InvalidValue
  | AddressOutOfRange
  | ShortRead
  | WriteRejected
deriving DecidableEq, Repr

/-- The closed tag set of supported value types (src/cli/mod.rs uses
crate::core::scan::ValueType with exactly these six variants). -/
inductive ValueType where
  | U32
  | I32
  | U64
  | I64
  | String
  | Hex
deriving DecidableEq, Repr

/-! ### Character helpers (ASCII arithmetic used by the parsers) -/

/-- Decimal digit test, as in Rust char::is_ascii_digit. -/
def isDecDigit (c : Char) : Bool :=
  48 ≤ c.toNat && c.toNat ≤ 57

/-- Hex digit test, as accepted by Rust from_str_radix with radix 16:
0-9, a-f and A-F. -/
def isHexDigitCh (c : Char) : Bool :=
  isDecDigit c || (97 ≤ c.toNat && c.toNat ≤ 102) || (65 ≤ c.toNat && c.toNat ≤ 70)

/-- Numeric value of a decimal digit character. -/
def decVal (c : Char) : Nat :=
  c.toNat - 48

/-- Numeric value of a hex digit character (either case). -/
def hexVal (c : Char) : Nat :=
  if c.toNat ≤ 57 then c.toNat - 48
  else if c.toNat ≤ 70 then c.toNat - 55
  else c.toNat - 87

/-- The decimal digit character for a value below ten. -/
def digitCh (n : Nat) : Char :=
  Char.ofNat (48 + n)

/-- The lowercase hex digit character for a value below sixteen. -/
def hexDigitCh (n : Nat) : Char :=
  if n < 10 then Char.ofNat (48 + n) else Char.ofNat (87 + n)

/-- ASCII lowercasing of one character, the fragment of Rust
str::to_lowercase that is relevant to the keyword comparison in
parse_value_type (all keywords are ASCII). -/
def asciiToLower (c : Char) : Char :=
  if 65 ≤ c.toNat && c.toNat ≤ 90 then Char.ofNat (c.toNat + 32) else c

/-- Lowercasing of a whole string. -/
def lowerStr (s : List Char) : List Char :=
  s.map asciiToLower

/-- Case-insensitive string comparison: equality after lowercasing. -/
def caseEq (a b : List Char) : Prop :=
  lowerStr a = lowerStr b

instance (a b : List Char) : Decidable (caseEq a b) := by
  unfold caseEq
  infer_instance

/-! ### CLI address parsing (src/cli/mod.rs lines 103-112, 172, 198) -/

/-- Rust str::trim_start_matches with the two-character pattern 0x:
removes every leading repetition of that pattern, not just one. -/
def stripAll0x : List Char → List Char
  | a :: b :: r => if a = '0' ∧ b = 'x' then stripAll0x r else a :: b :: r
  | s => s

/-- Sign handling of Rust u64::from_str_radix: one leading plus sign is
accepted and skipped (a minus sign is not, for an unsigned target: it is
simply not a digit and parsing fails on it). -/
def dropPlusSign : List Char → List Char
  | c :: r => if c = '+' then r else c :: r
  | [] => []

/-- Accumulating value of a hex digit string. -/
def hexFold (s : List Char) : Nat :=
  s.foldl (fun a c => 16 * a + hexVal c) 0

/-- Model of Rust u64::from_str_radix(s, 16): optional leading plus sign,
then one or more hex digits, with overflow checked against 2 to the 64.
The Rust code checks overflow at every accumulation step; since the
accumulator is monotone in the remaining digits, that is equivalent to
the single final bound check used here. -/
def rustHexU64 (s : List Char) : Option Nat :=
  if dropPlusSign s ≠ [] ∧ (dropPlusSign s).all isHexDigitCh then
    if hexFold (dropPlusSign s) < 18446744073709551616 then some (hexFold (dropPlusSign s))
    else none
  else none

/-- parse_address from src/cli/mod.rs lines 103-112: an absent bound is
accepted as Ok(None); a present one goes through trim_start_matches
followed by u64::from_str_radix. -/
def parse_address (s : Option (List Char)) : Option (Option Nat) :=
  match s with
  | some a => (rustHexU64 (stripAll0x a)).map some
  | none => some none

/-- The inline address parse of read_memory (src/cli/mod.rs line 172):
the same trim_start_matches / from_str_radix composition. -/
def readAddress (s : List Char) : Option Nat :=
  rustHexU64 (stripAll0x s)

/-- The inline address parse of write_memory (src/cli/mod.rs line 198). -/
def writeAddress (s : List Char) : Option Nat :=
  rustHexU64 (stripAll0x s)

/-! ### CLI value-type parsing (src/cli/mod.rs lines 114-124) -/

/-- parse_value_type from src/cli/mod.rs: lowercase the input and match
it against the six keywords; anything else is an error. -/
def parse_value_type (s : List Char) : Except CoreError ValueType :=
  if lowerStr s = ['u', '3', '2'] then .ok .U32
  else if lowerStr s = ['i', '3', '2'] then .ok .I32
  else if lowerStr s = ['u', '6', '4'] then .ok .U64
  else if lowerStr s = ['i', '6', '4'] then .ok .I64
  else if lowerStr s = ['s', 't', 'r', 'i', 'n', 'g'] then .ok .String
  else if lowerStr s = ['h', 'e', 'x'] then .ok .Hex
  else .error .InvalidValue

/-! ### CLI read-size default (src/cli/mod.rs lines 175-179) -/

/-- The read length used by read_memory: the explicit size argument when
given, otherwise 8 bytes for U64/I64, 4 for U32/I32 and 32 for
String/Hex (size.unwrap_or_else over the match on value_type). -/
def read_size (size : Option Nat) (t : ValueType) : Nat :=
  match size with
  | some n => n
  | none =>
    match t with
    | .U64 | .I64 => 8
    | .U32 | .I32 => 4
    | .String | .Hex => 32

/-! ### Value Codec

Modelled from the spec: the Value Codec of core::scan (spec.md sections
3 and 4.1) is not among the shipped sources, so encode/decode are built
from the words of the spec: numeric types parse base-10 (or 0x hex)
integers of the declared width and are stored as native little-endian
bytes; String copies UTF-8 bytes verbatim and decoding validates UTF-8;
Hex strips one optional 0x marker and pairs hex digits. -/

/-- Big-endian decimal rendering of a natural, driven by a fuel that the
wrapper sets large enough; digits are emitted most significant first. -/
def natDecAux : Nat → Nat → List Char
  | 0, _ => []
  | fuel + 1, n => if n < 10 then [digitCh n] else natDecAux fuel (n / 10) ++ [digitCh (n % 10)]

/-- Canonical base-10 text of a natural (no leading zeros, 0 as "0"). -/
def renderNat (n : Nat) : List Char :=
  natDecAux (n + 1) n

/-- Canonical base-10 text of an integer, a minus sign when negative. -/
def renderInt (v : Int) : List Char :=
  if v < 0 then '-' :: renderNat v.natAbs else renderNat v.toNat

/-- Accumulating value of a decimal digit string. -/
def decFold (s : List Char) : Nat :=
  s.foldl (fun a c => 10 * a + decVal c) 0

/-- Parse a nonempty all-decimal string into a natural. -/
def parseNatDec (s : List Char) : Option Nat :=
  if s ≠ [] ∧ s.all isDecDigit then some (decFold s) else none

/-- Modelled from the spec: the magnitude part of numeric text, base-10
or 0x-prefixed hex for convenience (spec.md section 4.1). -/
def parseNatMaybeHex (s : List Char) : Option Nat :=
  match s with
  | a :: b :: r =>
    if a = '0' ∧ b = 'x' then
      if r ≠ [] ∧ r.all isHexDigitCh then some (hexFold r) else none
    else parseNatDec (a :: b :: r)
  | r => parseNatDec r

/-- Modelled from the spec: signed/unsigned numeric text; a single
leading minus sign negates the magnitude. -/
def parseNumText (s : List Char) : Option Int :=
  match s with
  | c :: r =>
    if c = '-' then (parseNatMaybeHex r).map (fun n : Nat => -(n : Int))
    else (parseNatMaybeHex (c :: r)).map (fun n : Nat => (n : Int))
  | [] => none

/-- Little-endian byte string of a natural, fixed width w. -/
def leBytes : Nat → Nat → List Nat
  | 0, _ => []
  | w + 1, n => n % 256 :: leBytes w (n / 256)

/-- Value of a little-endian byte string. -/
def leVal : List Nat → Nat
  | [] => 0
  | b :: r => b + 256 * leVal r

/-- Lower bound of the domain of a fixed-width type. -/
def intLo (w : Nat) (signed : Bool) : Int :=
  if signed then -(2 ^ (8 * w - 1)) else 0

/-- Upper bound of the domain of a fixed-width type. -/
def intHi (w : Nat) (signed : Bool) : Int :=
  if signed then 2 ^ (8 * w - 1) - 1 else 2 ^ (8 * w) - 1

/-- Modelled from the spec: numeric encode — parse the text, check the
declared domain, store as two-complement little-endian bytes of width w
(native encoding on a little-endian host, spec.md section 3). -/
def encodeFixed (w : Nat) (signed : Bool) (s : List Char) : Except CoreError (List Nat) :=
  match parseNumText s with
  | none => .error .InvalidValue
  | some v =>
    if intLo w signed ≤ v ∧ v ≤ intHi w signed then
      .ok (leBytes w (v % (2 ^ (8 * w))).toNat)
    else .error .InvalidValue

/-- Modelled from the spec: numeric decode — exactly w bytes, read as
little-endian, reinterpreted through the sign bit for signed types,
rendered base-10. -/
def decodeFixed (w : Nat) (signed : Bool) (bs : List Nat) : Except CoreError (List Char) :=
  if bs.length = w then
    if signed then
      .ok (renderInt
        (if 2 ^ (8 * w - 1) ≤ leVal bs then (leVal bs : Int) - 2 ^ (8 * w) else (leVal bs : Int)))
    else .ok (renderNat (leVal bs))
  else .error .InvalidValue

/-- UTF-8 bytes of one unicode scalar value. -/
def utf8Char (n : Nat) : List Nat :=
  if n < 128 then [n]
  else if n < 2048 then [192 + n / 64, 128 + n % 64]
  else if n < 65536 then [224 + n / 4096, 128 + n / 64 % 64, 128 + n % 64]
  else [240 + n / 262144, 128 + n / 4096 % 64, 128 + n / 64 % 64, 128 + n % 64]

/-- UTF-8 bytes of a string, the byte image a Rust String holds. -/
def utf8Encode (s : List Char) : List Nat :=
  s.foldr (fun c acc => utf8Char c.toNat ++ acc) []

/-- Validating UTF-8 decoder (fuel-driven; the wrapper passes the byte
count, an upper bound on the number of decoded scalars).  Rejects
continuation-byte and overlong forms, surrogates and values beyond
0x10FFFF. -/
def utf8DecodeAux : Nat → List Nat → Option (List Char)
  | _, [] => some []
  | 0, _ :: _ => none
  | fuel + 1, b :: bs =>
    if b < 128 then
      (utf8DecodeAux fuel bs).map (fun cs => Char.ofNat b :: cs)
    else if b < 194 then none
    else if b < 224 then
      match bs with
      | b1 :: r =>
        if 128 ≤ b1 ∧ b1 < 192 then
          (utf8DecodeAux fuel r).map (fun cs => Char.ofNat ((b - 192) * 64 + (b1 - 128)) :: cs)
        else none
      | [] => none
    else if b < 240 then
      match bs with
      | b1 :: b2 :: r =>
        if (128 ≤ b1 ∧ b1 < 192) ∧ (128 ≤ b2 ∧ b2 < 192) ∧
            (b = 224 → 160 ≤ b1) ∧ (b = 237 → b1 < 160) then
          (utf8DecodeAux fuel r).map
            (fun cs => Char.ofNat ((b - 224) * 4096 + (b1 - 128) * 64 + (b2 - 128)) :: cs)
        else none
      | _ => none
    else if b < 245 then
      match bs with
      | b1 :: b2 :: b3 :: r =>
        if (128 ≤ b1 ∧ b1 < 192) ∧ (128 ≤ b2 ∧ b2 < 192) ∧ (128 ≤ b3 ∧ b3 < 192) ∧
            (b = 240 → 144 ≤ b1) ∧ (b = 244 → b1 < 144) then
          (utf8DecodeAux fuel r).map
            (fun cs =>
              Char.ofNat ((b - 240) * 262144 + (b1 - 128) * 4096 + (b2 - 128) * 64 + (b3 - 128)) :: cs)
        else none
      | _ => none
    else none

/-- UTF-8 decoding of a byte buffer, as Rust String::from_utf8. -/
def utf8Decode (bs : List Nat) : Option (List Char) :=
  utf8DecodeAux bs.length bs

/-- One optional leading 0x marker removed (hex literals only). -/
def stripHex (s : List Char) : List Char :=
  match s with
  | a :: b :: r => if a = '0' ∧ b = 'x' then r else a :: b :: r
  | r => r

/-- Bytes of an even-length hex digit string, one byte per digit pair. -/
def hexPairs : List Char → List Nat
  | c1 :: c2 :: r => (16 * hexVal c1 + hexVal c2) :: hexPairs r
  | _ => []

/-- Modelled from the spec: Hex encode — strip one optional 0x marker,
then every character must be a hex digit and the digit count even;
otherwise InvalidValue (spec.md section 4.1). -/
def encodeHexText (s : List Char) : Except CoreError (List Nat) :=
  if (stripHex s).all isHexDigitCh ∧ (stripHex s).length % 2 = 0 then
    .ok (hexPairs (stripHex s))
  else .error .InvalidValue

/-- Modelled from the spec: the address-literal rule exactly as spec.md
section 6 words it — remove one optional 0x marker, then every
remaining character must be a hex digit and the value must fit in 64
bits; anything else fails.  Kept deliberately separate from the
code-level parse_address so the two can be compared (claim C4). -/
def specParseAddress (s : List Char) : Option Nat :=
  if stripHex s ≠ [] ∧ (stripHex s).all isHexDigitCh ∧
      hexFold (stripHex s) < 18446744073709551616 then
    some (hexFold (stripHex s))
  else none

/-- Lowercase hex rendering of a byte buffer, two digits per byte, no
separator. -/
def hexText (bs : List Nat) : List Char :=
  bs.foldr (fun b acc => hexDigitCh (b / 16 % 16) :: hexDigitCh (b % 16) :: acc) []

/-- Modelled from the spec: encode(text, type) of the Value Codec. -/
def encodeValue (t : ValueType) (s : List Char) : Except CoreError (List Nat) :=
  match t with
  | .U32 => encodeFixed 4 false s
  | .I32 => encodeFixed 4 true s
  | .U64 => encodeFixed 8 false s
  | .I64 => encodeFixed 8 true s
  | .String => .ok (utf8Encode s)
  | .Hex => encodeHexText s

/-- Modelled from the spec: decode(bytes, type) of the Value Codec. -/
def decodeValue (t : ValueType) (bs : List Nat) : Except CoreError (List Char) :=
  match t with
  | .U32 => decodeFixed 4 false bs
  | .I32 => decodeFixed 4 true bs
  | .U64 => decodeFixed 8 false bs
  | .I64 => decodeFixed 8 true bs
  | .String =>
    match utf8Decode bs with
    | some cs => .ok cs
    | none => .error .InvalidValue
  | .Hex => .ok (hexText bs)

/-- decode after encode, the composition the round-trip law speaks of. -/
def codecRoundTrip (t : ValueType) (s : List Char) : Except CoreError (List Char) :=
  match encodeValue t s with
  | .ok bs => decodeValue t bs
  | .error e => .error e

/-- fixed_width from spec.md section 4.1: 4 or 8 for numerics, none for
the variable-length types. -/
def fixed_width (t : ValueType) : Option Nat :=
  match t with
  | .U32 | .I32 => some 4
  | .U64 | .I64 => some 8
  | .String | .Hex => none

/-! ### Scan Engine

Modelled from the spec: core::scan (Scan::new / set_value_from_str /
init) is not among the shipped sources; the engine below follows spec.md
section 4.3 step by step.  Region enumeration and per-region reads are
external effects (OS calls), so the model takes their outcomes as
explicit Except-valued inputs. -/

/-- A memory access permission (spec.md section 3; execute is not
modelled). -/
inductive Perm where
  | Read
  | Write
deriving DecidableEq, Repr

/-- A mapped region snapshot: start address, byte size, permissions. -/
structure MemRegion where
  start : Nat
  size : Nat
  perms : List Perm
deriving DecidableEq, Repr

/-- One scan match: absolute address, the permissions of the region it
was found in, and a copy of the matched bytes. -/
structure ScanHit where
  address : Nat
  perms : List Perm
  bytes : List Nat
deriving DecidableEq, Repr

/-- Modelled from the spec: the exhaustive overlapping-allowed substring
search of section 4.3 step 4 — every starting offset whose window equals
the target, in ascending offset order. -/
def scanBuffer (buf pat : List Nat) : List Nat :=
  (List.range (buf.length + 1 - pat.length)).filter
    (fun i => (buf.drop i).take pat.length == pat)

/-- The hits contributed by one region whose bytes were read as buf. -/
def regionHits (pat : List Nat) (r : MemRegion) (buf : List Nat) : List ScanHit :=
  (scanBuffer buf pat).map
    (fun i => { address := r.start + i, perms := r.perms, bytes := (buf.drop i).take pat.length })

/-- Modelled from the spec: section 4.3 step 3 — regions are processed
in order; a region whose read fails is skipped, not fatal. -/
def scanRegions (pat : List Nat) (readFn : MemRegion → Except CoreError (List Nat))
    (rs : List MemRegion) : List ScanHit :=
  rs.flatMap (fun r =>
    match readFn r with
    | .error _ => []
    | .ok buf => regionHits pat r buf)

/-- Modelled from the spec: clip a region to the optional scan bounds;
a region left empty by the clip is dropped (section 4.3 step 1b). -/
def clipRegion (lo hi : Option Nat) (r : MemRegion) : Option MemRegion :=
  let s := max r.start (lo.getD r.start)
  let e := min (r.start + r.size) (hi.getD (r.start + r.size))
  if s < e then some { start := s, size := e - s, perms := r.perms } else none

/-- Modelled from the spec: section 4.3 step 1 — keep readable regions,
clipped to the requested bounds. -/
def eligibleRegions (lo hi : Option Nat) (rs : List MemRegion) : List MemRegion :=
  (rs.filter (fun r => r.perms.contains .Read)).filterMap (clipRegion lo hi)

/-- Modelled from the spec: the whole scan of section 4.3.  The encoded
target comes first (set_value_from_str runs before init in the CLI
driver, src/cli/mod.rs lines 137-141); an encoding error or an
enumeration error aborts the scan with no partial results; an empty
target is rejected (section 3, ScanRequest invariant); otherwise every
eligible region is scanned and per-region read failures are skipped. -/
def scanModel (target : Except CoreError (List Nat))
    (regions : Except CoreError (List MemRegion))
    (readFn : MemRegion → Except CoreError (List Nat))
    (lo hi : Option Nat) : Except CoreError (List ScanHit) :=
  match target with
  | .error e => .error e
  | .ok pat =>
    if pat.isEmpty then .error .InvalidValue
    else
      match regions with
      | .error e => .error e
      | .ok rs => .ok (scanRegions pat readFn (eligibleRegions lo hi rs))

/-! ### Helper lemmas: decimal rendering and parsing -/

theorem decVal_digitCh : ∀ d < 10, decVal (digitCh d) = d := by decide

theorem isDecDigit_digitCh : ∀ d < 10, isDecDigit (digitCh d) = true := by decide

theorem digitCh_ne_minus : ∀ d < 10, digitCh d ≠ '-' := by decide

theorem digitCh_ne_x : ∀ d < 10, digitCh d ≠ 'x' := by decide

theorem natDecAux_digits : ∀ fuel n c, c ∈ natDecAux fuel n → ∃ d, d < 10 ∧ c = digitCh d := by
  intro fuel
  induction fuel with
  | zero => intro n c hc; simp [natDecAux] at hc
  | succ f ih =>
    intro n c hc
    by_cases h : n < 10
    · simp [natDecAux, h] at hc
      exact ⟨n, h, hc⟩
    · simp [natDecAux, h] at hc
      rcases hc with hc | hc
      · exact ih _ _ hc
      · exact ⟨n % 10, Nat.mod_lt _ (by omega), hc⟩

theorem natDecAux_ne_nil (fuel n : Nat) : natDecAux (fuel + 1) n ≠ [] := by
  simp only [natDecAux]
  split <;> simp

theorem decFold_natDecAux : ∀ fuel n acc, n < fuel →
    List.foldl (fun a c => 10 * a + decVal c) acc (natDecAux fuel n) =
      acc * 10 ^ (natDecAux fuel n).length + n := by
  intro fuel
  induction fuel with
  | zero => intro n acc h; omega
  | succ f ih =>
    intro n acc h
    by_cases hn : n < 10
    · simp [natDecAux, hn, decVal_digitCh n hn]
      ring
    · have hrec : n / 10 < f := by omega
      simp only [natDecAux, if_neg hn, List.foldl_append, List.length_append, List.length_cons,
        List.length_nil, List.foldl_cons, List.foldl_nil]
      rw [ih _ acc hrec, decVal_digitCh _ (Nat.mod_lt _ (by omega))]
      have hdm := Nat.div_add_mod n 10
      set L := (natDecAux f (n / 10)).length
      calc 10 * (acc * 10 ^ L + n / 10) + n % 10
          = acc * (10 ^ L * 10) + (10 * (n / 10) + n % 10) := by ring
        _ = acc * 10 ^ (L + 1) + n := by rw [pow_succ]; omega

theorem renderNat_ne_nil (n : Nat) : renderNat n ≠ [] :=
  natDecAux_ne_nil n n

theorem renderNat_digits (n : Nat) : ∀ c ∈ renderNat n, ∃ d, d < 10 ∧ c = digitCh d :=
  fun c hc => natDecAux_digits (n + 1) n c hc

theorem parseNatDec_renderNat (n : Nat) : parseNatDec (renderNat n) = some n := by
  have hall : (renderNat n).all isDecDigit = true := by
    rw [List.all_eq_true]
    intro c hc
    obtain ⟨d, hd, rfl⟩ := renderNat_digits n c hc
    exact isDecDigit_digitCh d hd
  have hfold : decFold (renderNat n) = n := by
    unfold decFold renderNat
    rw [decFold_natDecAux (n + 1) n 0 (by omega)]
    simp
  rw [parseNatDec, if_pos ⟨renderNat_ne_nil n, hall⟩, hfold]

theorem parseNatMaybeHex_renderNat (n : Nat) : parseNatMaybeHex (renderNat n) = some n := by
  have hmain := parseNatDec_renderNat n
  cases h : renderNat n with
  | nil => exact absurd h (renderNat_ne_nil n)
  | cons a t =>
    cases t with
    | nil => rw [h] at hmain; simpa [parseNatMaybeHex] using hmain
    | cons b r =>
      have hb : ∃ d, d < 10 ∧ b = digitCh d := by
        apply renderNat_digits n
        rw [h]; simp
      obtain ⟨d, hd, rfl⟩ := hb
      rw [h] at hmain
      simpa [parseNatMaybeHex, digitCh_ne_x d hd] using hmain

theorem parseNumText_renderInt (v : Int) : parseNumText (renderInt v) = some v := by
  by_cases hv : v < 0
  · have : renderInt v = '-' :: renderNat v.natAbs := by rw [renderInt, if_pos hv]
    rw [this]
    simp only [parseNumText, if_pos rfl, parseNatMaybeHex_renderNat, Option.map_some]
    have habs : ((v.natAbs : Nat) : Int) = -v := by omega
    simp [habs]
  · have hr : renderInt v = renderNat v.toNat := by rw [renderInt, if_neg hv]
    rw [hr]
    cases h : renderNat v.toNat with
    | nil => exact absurd h (renderNat_ne_nil _)
    | cons a t =>
      have ha : ∃ d, d < 10 ∧ a = digitCh d := by
        apply renderNat_digits v.toNat
        rw [h]; simp
      obtain ⟨d, hd, rfl⟩ := ha
      have hmain := parseNatMaybeHex_renderNat v.toNat
      rw [h] at hmain
      simp only [parseNumText, if_neg (digitCh_ne_minus d hd), hmain, Option.map_some]
      have htn : ((v.toNat : Nat) : Int) = v := by omega
      simp [htn]

/-! ### Helper lemmas: little-endian bytes and the numeric round trip -/

theorem leBytes_length : ∀ w n, (leBytes w n).length = w := by
  intro w
  induction w with
  | zero => intro n; rfl
  | succ k ih => intro n; simp [leBytes, ih]

theorem leVal_leBytes : ∀ w n, leVal (leBytes w n) = n % 256 ^ w := by
  intro w
  induction w with
  | zero => intro n; simp [leBytes, leVal, Nat.mod_one]
  | succ k ih =>
    intro n
    calc leVal (leBytes (k + 1) n) = n % 256 + 256 * leVal (leBytes k (n / 256)) := rfl
      _ = n % 256 + 256 * (n / 256 % 256 ^ k) := by rw [ih]
      _ = n % (256 * 256 ^ k) := Nat.mod_mul.symm
      _ = n % 256 ^ (k + 1) := by rw [pow_succ, mul_comm]

theorem codecRT_fixed (w : Nat) (signed : Bool) (v : Int) (hw : w ≠ 0)
    (hlo : intLo w signed ≤ v) (hhi : v ≤ intHi w signed) :
    (match encodeFixed w signed (renderInt v) with
      | .ok bs => decodeFixed w signed bs
      | .error e => Except.error e) = .ok (renderInt v) := by
  have henc : encodeFixed w signed (renderInt v) =
      .ok (leBytes w (v % (2 ^ (8 * w))).toNat) := by
    simp only [encodeFixed, parseNumText_renderInt]
    rw [if_pos ⟨hlo, hhi⟩]
  rw [henc]
  show decodeFixed w signed (leBytes w (v % 2 ^ (8 * w)).toNat) = Except.ok (renderInt v)
  have hMpos : (0 : Int) < 2 ^ (8 * w) := by positivity
  have hmnn : 0 ≤ v % 2 ^ (8 * w) := Int.emod_nonneg v hMpos.ne'
  have hmlt : v % 2 ^ (8 * w) < 2 ^ (8 * w) := Int.emod_lt_of_pos v hMpos
  set m : Nat := (v % 2 ^ (8 * w)).toNat with hm
  have hcast : (m : Int) = v % 2 ^ (8 * w) := Int.toNat_of_nonneg hmnn
  have hdc : ((2 ^ (8 * w) : Nat) : Int) = (2 : Int) ^ (8 * w) := by push_cast; rfl
  have hmlt2 : m < 2 ^ (8 * w) := by omega
  have hpoweq : (256 : Nat) ^ w = 2 ^ (8 * w) := by
    rw [pow_mul]
    norm_num
  have hval : leVal (leBytes w m) = m := by
    rw [leVal_leBytes, hpoweq, Nat.mod_eq_of_lt hmlt2]
  cases signed with
  | false =>
    have hlo2 : (0 : Int) ≤ v := by simpa [intLo] using hlo
    have hhi2 : v ≤ 2 ^ (8 * w) - 1 := by simpa [intHi] using hhi
    have hveq : v % 2 ^ (8 * w) = v := Int.emod_eq_of_lt hlo2 (by omega)
    have hmv : m = v.toNat := by omega
    have hri : renderInt v = renderNat v.toNat := by
      rw [renderInt, if_neg (by omega)]
    have hdec : decodeFixed w false (leBytes w m) = .ok (renderNat (leVal (leBytes w m))) := by
      simp [decodeFixed, leBytes_length]
    rw [hdec, hval, hmv, hri]
  | true =>
    have hM2 : (2 : Int) ^ (8 * w) = 2 * 2 ^ (8 * w - 1) := by
      rw [← pow_succ']
      congr 1
      omega
    have hNpos : (0 : Int) < 2 ^ (8 * w - 1) := by positivity
    have hlo2 : -(2 : Int) ^ (8 * w - 1) ≤ v := by simpa [intLo] using hlo
    have hhi2 : v ≤ 2 ^ (8 * w - 1) - 1 := by simpa [intHi] using hhi
    have hvm : v % 2 ^ (8 * w) = if 0 ≤ v then v else v + 2 ^ (8 * w) := by
      by_cases h0 : 0 ≤ v
      · rw [if_pos h0]
        exact Int.emod_eq_of_lt h0 (by omega)
      · rw [if_neg h0]
        have h1 : (v + 2 ^ (8 * w)) % 2 ^ (8 * w) = v % 2 ^ (8 * w) := by
          have h2 := Int.add_mul_emod_self_left v (2 ^ (8 * w)) 1
          rw [mul_one] at h2
          exact h2
        rw [← h1]
        exact Int.emod_eq_of_lt (by omega) (by omega)
    have hdc1 : ((2 ^ (8 * w - 1) : Nat) : Int) = (2 : Int) ^ (8 * w - 1) := by push_cast; rfl
    have hinner : (if 2 ^ (8 * w - 1) ≤ m then (m : Int) - 2 ^ (8 * w) else (m : Int)) = v := by
      by_cases h0 : 0 ≤ v
      · rw [if_neg (by omega)]
        omega
      · rw [if_pos (by omega)]
        omega
    have hdec : decodeFixed w true (leBytes w m) =
        .ok (renderInt (if 2 ^ (8 * w - 1) ≤ leVal (leBytes w m) then
          (leVal (leBytes w m) : Int) - 2 ^ (8 * w) else (leVal (leBytes w m) : Int))) := by
      simp [decodeFixed, leBytes_length]
    rw [hdec, hval, hinner]

/-! ### Helper lemmas: UTF-8 round trip -/

theorem utf8Encode_cons (c : Char) (s : List Char) :
    utf8Encode (c :: s) = utf8Char c.toNat ++ utf8Encode s := rfl

theorem length_le_utf8Encode : ∀ s : List Char, s.length ≤ (utf8Encode s).length := by
  intro s
  induction s with
  | nil => simp [utf8Encode]
  | cons c t ih =>
    rw [utf8Encode_cons, List.length_append, List.length_cons]
    have h1 : 1 ≤ (utf8Char c.toNat).length := by
      unfold utf8Char
      split_ifs <;> simp
    omega

theorem char_valid_range (c : Char) :
    c.toNat < 55296 ∨ (57344 ≤ c.toNat ∧ c.toNat < 1114112) := by
  have h := c.valid
  unfold UInt32.isValidChar at h
  unfold Nat.isValidChar at h
  exact h

theorem utf8DecodeAux_char (c : Char) (rest : List Nat) (fuel : Nat) :
    utf8DecodeAux (fuel + 1) (utf8Char c.toNat ++ rest) =
      (utf8DecodeAux fuel rest).map (fun cs => c :: cs) := by
  have hv := char_valid_range c
  by_cases h1 : c.toNat < 128
  · rw [utf8Char, if_pos h1]
    show utf8DecodeAux (fuel + 1) (c.toNat :: rest) = _
    simp only [utf8DecodeAux, if_pos h1, Char.ofNat_toNat]
  · by_cases h2 : c.toNat < 2048
    · rw [utf8Char, if_neg h1, if_pos h2]
      show utf8DecodeAux (fuel + 1)
        ((192 + c.toNat / 64) :: (128 + c.toNat % 64) :: rest) = _
      have c1 : ¬ (192 + c.toNat / 64 < 128) := by omega
      have c2 : ¬ (192 + c.toNat / 64 < 194) := by omega
      have c3 : 192 + c.toNat / 64 < 224 := by omega
      have c4 : 128 ≤ 128 + c.toNat % 64 ∧ 128 + c.toNat % 64 < 192 := by omega
      simp only [utf8DecodeAux, if_neg c1, if_neg c2, if_pos c3, if_pos c4]
      have harg : (192 + c.toNat / 64 - 192) * 64 + (128 + c.toNat % 64 - 128) = c.toNat := by
        omega
      simp only [harg, Char.ofNat_toNat]
    · by_cases h3 : c.toNat < 65536
      · rw [utf8Char, if_neg h1, if_neg h2, if_pos h3]
        show utf8DecodeAux (fuel + 1)
          ((224 + c.toNat / 4096) :: (128 + c.toNat / 64 % 64) :: (128 + c.toNat % 64) :: rest) = _
        have c1 : ¬ (224 + c.toNat / 4096 < 128) := by omega
        have c2 : ¬ (224 + c.toNat / 4096 < 194) := by omega
        have c3 : ¬ (224 + c.toNat / 4096 < 224) := by omega
        have c4 : 224 + c.toNat / 4096 < 240 := by omega
        have c5 : (128 ≤ 128 + c.toNat / 64 % 64 ∧ 128 + c.toNat / 64 % 64 < 192) ∧
            (128 ≤ 128 + c.toNat % 64 ∧ 128 + c.toNat % 64 < 192) ∧
            (224 + c.toNat / 4096 = 224 → 160 ≤ 128 + c.toNat / 64 % 64) ∧
            (224 + c.toNat / 4096 = 237 → 128 + c.toNat / 64 % 64 < 160) := by
          omega
        simp only [utf8DecodeAux, if_neg c1, if_neg c2, if_neg c3, if_pos c4, if_pos c5]
        have harg : (224 + c.toNat / 4096 - 224) * 4096 + (128 + c.toNat / 64 % 64 - 128) * 64 +
            (128 + c.toNat % 64 - 128) = c.toNat := by
          omega
        simp only [harg, Char.ofNat_toNat]
      · rw [utf8Char, if_neg h1, if_neg h2, if_neg h3]
        show utf8DecodeAux (fuel + 1)
          ((240 + c.toNat / 262144) :: (128 + c.toNat / 4096 % 64) ::
            (128 + c.toNat / 64 % 64) :: (128 + c.toNat % 64) :: rest) = _
        have c1 : ¬ (240 + c.toNat / 262144 < 128) := by omega
        have c2 : ¬ (240 + c.toNat / 262144 < 194) := by omega
        have c3 : ¬ (240 + c.toNat / 262144 < 224) := by omega
        have c4 : ¬ (240 + c.toNat / 262144 < 240) := by omega
        have c5 : 240 + c.toNat / 262144 < 245 := by omega
        have c6 : (128 ≤ 128 + c.toNat / 4096 % 64 ∧ 128 + c.toNat / 4096 % 64 < 192) ∧
            (128 ≤ 128 + c.toNat / 64 % 64 ∧ 128 + c.toNat / 64 % 64 < 192) ∧
            (128 ≤ 128 + c.toNat % 64 ∧ 128 + c.toNat % 64 < 192) ∧
            (240 + c.toNat / 262144 = 240 → 144 ≤ 128 + c.toNat / 4096 % 64) ∧
            (240 + c.toNat / 262144 = 244 → 128 + c.toNat / 4096 % 64 < 144) := by
          omega
        simp only [utf8DecodeAux, if_neg c1, if_neg c2, if_neg c3, if_neg c4, if_pos c5, if_pos c6]
        have harg : (240 + c.toNat / 262144 - 240) * 262144 +
            (128 + c.toNat / 4096 % 64 - 128) * 4096 +
            (128 + c.toNat / 64 % 64 - 128) * 64 + (128 + c.toNat % 64 - 128) = c.toNat := by
          omega
        simp only [harg, Char.ofNat_toNat]

theorem utf8DecodeAux_encode : ∀ (s : List Char) (fuel : Nat), s.length ≤ fuel →
    utf8DecodeAux fuel (utf8Encode s) = some s := by
  intro s
  induction s with
  | nil =>
    intro fuel h
    cases fuel <;> rfl
  | cons c t ih =>
    intro fuel h
    simp only [List.length_cons] at h
    cases fuel with
    | zero => omega
    | succ f =>
      rw [utf8Encode_cons, utf8DecodeAux_char, ih f (by omega)]
      rfl

theorem utf8Decode_encode (s : List Char) : utf8Decode (utf8Encode s) = some s :=
  utf8DecodeAux_encode s _ (length_le_utf8Encode s)

/-! ### Helper lemmas: hex rendering and parsing -/

theorem hexVal_hexDigitCh : ∀ x < 16, hexVal (hexDigitCh x) = x := by decide

theorem isHexDigitCh_hexDigitCh : ∀ x < 16, isHexDigitCh (hexDigitCh x) = true := by decide

theorem hexDigitCh_ne_x : ∀ x < 16, hexDigitCh x ≠ 'x' := by decide

theorem hexText_cons (b : Nat) (r : List Nat) :
    hexText (b :: r) = hexDigitCh (b / 16 % 16) :: hexDigitCh (b % 16) :: hexText r := rfl

theorem stripHex_hexText (bs : List Nat) : stripHex (hexText bs) = hexText bs := by
  cases bs with
  | nil => rfl
  | cons b r =>
    rw [hexText_cons]
    simp only [stripHex]
    rw [if_neg]
    intro hcond
    exact hexDigitCh_ne_x (b % 16) (Nat.mod_lt _ (by omega)) hcond.2

theorem hexText_all (bs : List Nat) : (hexText bs).all isHexDigitCh = true := by
  induction bs with
  | nil => rfl
  | cons b r ih =>
    rw [hexText_cons]
    simp only [List.all_cons, ih, Bool.and_true]
    rw [isHexDigitCh_hexDigitCh _ (Nat.mod_lt _ (by omega)),
      isHexDigitCh_hexDigitCh _ (Nat.mod_lt _ (by omega))]
    rfl

theorem hexText_length (bs : List Nat) : (hexText bs).length = 2 * bs.length := by
  induction bs with
  | nil => rfl
  | cons b r ih =>
    rw [hexText_cons]
    simp only [List.length_cons, ih]
    omega

theorem hexPairs_hexText (bs : List Nat) (h : ∀ b ∈ bs, b < 256) :
    hexPairs (hexText bs) = bs := by
  induction bs with
  | nil => rfl
  | cons b r ih =>
    have hb : b < 256 := h b (by simp)
    rw [hexText_cons]
    simp only [hexPairs]
    rw [hexVal_hexDigitCh _ (Nat.mod_lt _ (by omega)),
      hexVal_hexDigitCh _ (Nat.mod_lt _ (by omega)),
      ih (fun x hx => h x (by simp [hx]))]
    congr 1
    omega

theorem hexPairs_length : ∀ t : List Char, (hexPairs t).length = t.length / 2
  | [] => rfl
  | [_] => by simp [hexPairs]
  | c1 :: c2 :: r => by
    simp only [hexPairs, List.length_cons]
    rw [hexPairs_length r]
    omega

theorem codecRT_hex (bs : List Nat) (h : ∀ b ∈ bs, b < 256) :
    codecRoundTrip .Hex (hexText bs) = .ok (hexText bs) := by
  have henc : encodeValue .Hex (hexText bs) = .ok bs := by
    show encodeHexText (hexText bs) = .ok bs
    unfold encodeHexText
    rw [stripHex_hexText]
    rw [if_pos ⟨hexText_all bs, by rw [hexText_length]; omega⟩]
    rw [hexPairs_hexText bs h]
  unfold codecRoundTrip
  rw [henc]
  rfl

theorem codecRT_string (s : List Char) : codecRoundTrip .String s = .ok s := by
  unfold codecRoundTrip
  show (match utf8Decode (utf8Encode s) with
    | some cs => Except.ok cs
    | none => Except.error CoreError.InvalidValue) = .ok s
  rw [utf8Decode_encode]

/-- Claim C1: codec round trip — for every supported ValueType and every
value representable in its domain, decoding the bytes produced by
encoding the canonical textual form of the value yields that same text
back (numeric domains are the signed/unsigned 32- and 64-bit ranges;
String values are arbitrary text; Hex values are arbitrary byte strings
whose textual form is their lowercase hex rendering). -/
theorem C1_codec_round_trip :
    (∀ v : Int, intLo 4 false ≤ v → v ≤ intHi 4 false →
      codecRoundTrip .U32 (renderInt v) = .ok (renderInt v)) ∧
    (∀ v : Int, intLo 4 true ≤ v → v ≤ intHi 4 true →
      codecRoundTrip .I32 (renderInt v) = .ok (renderInt v)) ∧
    (∀ v : Int, intLo 8 false ≤ v → v ≤ intHi 8 false →
      codecRoundTrip .U64 (renderInt v) = .ok (renderInt v)) ∧
    (∀ v : Int, intLo 8 true ≤ v → v ≤ intHi 8 true →
      codecRoundTrip .I64 (renderInt v) = .ok (renderInt v)) ∧
    (∀ s : List Char, codecRoundTrip .String s = .ok s) ∧
    (∀ bs : List Nat, (∀ b ∈ bs, b < 256) →
      codecRoundTrip .Hex (hexText bs) = .ok (hexText bs)) := by
  refine ⟨?_, ?_, ?_, ?_, codecRT_string, codecRT_hex⟩
  · intro v hlo hhi
    exact codecRT_fixed 4 false v (by omega) hlo hhi
  · intro v hlo hhi
    exact codecRT_fixed 4 true v (by omega) hlo hhi
  · intro v hlo hhi
    exact codecRT_fixed 8 false v (by omega) hlo hhi
  · intro v hlo hhi
    exact codecRT_fixed 8 true v (by omega) hlo hhi

/-- Witness for C1 at concrete inputs of every type. -/
theorem C1_codec_round_trip_witness :
    codecRoundTrip .U32 (renderInt 300) = .ok (renderInt 300) ∧
    codecRoundTrip .I32 (renderInt (-300)) = .ok (renderInt (-300)) ∧
    codecRoundTrip .U64 (renderInt 300) = .ok (renderInt 300) ∧
    codecRoundTrip .I64 (renderInt (-300)) = .ok (renderInt (-300)) ∧
    codecRoundTrip .String ['a', 'b'] = .ok ['a', 'b'] ∧
    codecRoundTrip .Hex (hexText [26, 43]) = .ok (hexText [26, 43]) :=
  ⟨C1_codec_round_trip.1 300 (by decide) (by decide),
   C1_codec_round_trip.2.1 (-300) (by decide) (by decide),
   C1_codec_round_trip.2.2.1 300 (by decide) (by decide),
   C1_codec_round_trip.2.2.2.1 (-300) (by decide) (by decide),
   C1_codec_round_trip.2.2.2.2.1 ['a', 'b'],
   C1_codec_round_trip.2.2.2.2.2 [26, 43] (by decide)⟩

/-- Claim C2: Hex encoding strips one optional 0x marker and then fails
with InvalidValue exactly when a non-hex character remains or the digit
count is odd; otherwise it yields one byte per digit pair; in particular
"zz" and "1a2" fail and "1a2b" gives bytes 0x1a 0x2b. -/
theorem C2_hex_encoding :
    (∀ s : List Char,
      (encodeValue .Hex s = .error .InvalidValue ↔
        (∃ c ∈ stripHex s, isHexDigitCh c = false) ∨ (stripHex s).length % 2 = 1) ∧
      ((∀ c ∈ stripHex s, isHexDigitCh c = true) → (stripHex s).length % 2 = 0 →
        encodeValue .Hex s = .ok (hexPairs (stripHex s)) ∧
          (hexPairs (stripHex s)).length = (stripHex s).length / 2)) ∧
    encodeValue .Hex ['z', 'z'] = .error .InvalidValue ∧
    encodeValue .Hex ['1', 'a', '2'] = .error .InvalidValue ∧
    encodeValue .Hex ['1', 'a', '2', 'b'] = .ok [26, 43] := by
  refine ⟨?_, rfl, rfl, rfl⟩
  intro s
  have he : encodeValue .Hex s = encodeHexText s := rfl
  rw [he, encodeHexText]
  by_cases h : (stripHex s).all isHexDigitCh ∧ (stripHex s).length % 2 = 0
  · rw [if_pos h]
    obtain ⟨hall, hev⟩ := h
    rw [List.all_eq_true] at hall
    constructor
    · constructor
      · intro hcontra
        exact absurd hcontra (by simp)
      · intro hrhs
        rcases hrhs with ⟨c, hc, hcf⟩ | hodd
        · rw [hall c hc] at hcf
          cases hcf
        · omega
    · intro _ _
      exact ⟨rfl, hexPairs_length _⟩
  · rw [if_neg h]
    constructor
    · constructor
      · intro _
        by_cases hall : (stripHex s).all isHexDigitCh = true
        · right
          have hodd : ¬ (stripHex s).length % 2 = 0 := fun hev => h ⟨hall, hev⟩
          omega
        · left
          simpa [List.all_eq_true, Bool.not_eq_true] using hall
      · intro _
        rfl
    · intro hall2 hev2
      exact absurd ⟨List.all_eq_true.mpr hall2, hev2⟩ h

/-- Witness for C2 discharging the success-side hypotheses at "1a2b". -/
theorem C2_hex_encoding_witness :
    encodeValue .Hex ['1', 'a', '2', 'b'] = .ok (hexPairs (stripHex ['1', 'a', '2', 'b'])) ∧
    (hexPairs (stripHex ['1', 'a', '2', 'b'])).length =
      (stripHex ['1', 'a', '2', 'b']).length / 2 :=
  (C2_hex_encoding.1 ['1', 'a', '2', 'b']).2 (by decide) (by decide)

/-- Claim C3: numeric encoding is fixed-width little-endian two-complement:
the text 300 at type I32 becomes exactly the four bytes 2c 01 00 00,
which are also the width-4 little-endian bytes of 300. -/
theorem C3_encode_i32_little_endian :
    encodeValue .I32 ['3', '0', '0'] = .ok [44, 1, 0, 0] ∧
    leBytes 4 300 = [44, 1, 0, 0] :=
  ⟨rfl, rfl⟩

/-- Claim C4 as stated is refuted by the code: 0x0x10 still contains a
non-hex character after one optional 0x marker is removed, so the rule
the claim words would reject it, yet the CLI parse accepts it as 16;
a leading plus sign after the markers is also accepted. -/
theorem C4_counterexample :
    specParseAddress ['0', 'x', '0', 'x', '1', '0'] = none ∧
    readAddress ['0', 'x', '0', 'x', '1', '0'] = some 16 ∧
    parse_address (some ['0', 'x', '0', 'x', '1', '0']) = some (some 16) ∧
    writeAddress ['0', 'x', '0', 'x', '1', '0'] = some 16 ∧
    specParseAddress ['0', 'x', '+', '1', '0'] = none ∧
    readAddress ['0', 'x', '+', '1', '0'] = some 16 :=
  ⟨rfl, rfl, rfl, rfl, rfl, rfl⟩

/-- Claim C4 (amended): every address literal at the external interface
(scan bounds, read address, write address) goes through the same parse,
which strips every leading repetition of 0x, skips one leading plus
sign, and then requires one or more hex digits whose accumulated value
fits in 64 bits; any other input fails. -/
theorem C4_address_parsing :
    ∀ s : List Char,
      parse_address (some s) = (readAddress s).map some ∧
      writeAddress s = readAddress s ∧
      (readAddress s = none ↔
        (dropPlusSign (stripAll0x s) = [] ∨
         (∃ c ∈ dropPlusSign (stripAll0x s), isHexDigitCh c = false) ∨
         18446744073709551616 ≤ hexFold (dropPlusSign (stripAll0x s)))) ∧
      (∀ n, readAddress s = some n → n = hexFold (dropPlusSign (stripAll0x s))) := by
  intro s
  refine ⟨rfl, rfl, ?_, ?_⟩
  · show rustHexU64 (stripAll0x s) = none ↔ _
    rw [rustHexU64]
    by_cases h1 : dropPlusSign (stripAll0x s) ≠ [] ∧
        (dropPlusSign (stripAll0x s)).all isHexDigitCh
    · rw [if_pos h1]
      by_cases h2 : hexFold (dropPlusSign (stripAll0x s)) < 18446744073709551616
      · rw [if_pos h2]
        constructor
        · intro hcontra
          exact absurd hcontra (by simp)
        · intro hrhs
          rcases hrhs with hnil | ⟨c, hc, hcf⟩ | hbig
          · exact absurd hnil h1.1
          · rw [List.all_eq_true] at h1
            rw [h1.2 c hc] at hcf
            cases hcf
          · omega
      · rw [if_neg h2]
        constructor
        · intro _
          right
          right
          omega
        · intro _
          rfl
    · rw [if_neg h1]
      push_neg at h1
      constructor
      · intro _
        by_cases hnil : dropPlusSign (stripAll0x s) = []
        · exact Or.inl hnil
        · right
          left
          have hna := h1 hnil
          simpa [List.all_eq_true, Bool.not_eq_true] using hna
      · intro _
        rfl
  · intro n hn
    rw [readAddress, rustHexU64] at hn
    split_ifs at hn
    injection hn with hv
    omega

/-- Witness for C4 (amended) at the literal 1f, value 31. -/
theorem C4_address_parsing_witness :
    readAddress ['1', 'f'] = some 31 ∧
    (31 : Nat) = hexFold (dropPlusSign (stripAll0x ['1', 'f'])) :=
  ⟨rfl, (C4_address_parsing ['1', 'f']).2.2.2 31 rfl⟩

/-- Claim C9: the CLI address parse strips every leading repetition of
the two characters 0x, not just one marker: prefixing 0x never changes
the outcome at any of the three interface points, and 0x0x10 parses
successfully to 16. -/
theorem C9_repeated_0x_stripped :
    (∀ s : List Char,
      readAddress ('0' :: 'x' :: s) = readAddress s ∧
      writeAddress ('0' :: 'x' :: s) = writeAddress s ∧
      parse_address (some ('0' :: 'x' :: s)) = parse_address (some s)) ∧
    readAddress ['0', 'x', '0', 'x', '1', '0'] = some 16 ∧
    writeAddress ['0', 'x', '0', 'x', '1', '0'] = some 16 ∧
    parse_address (some ['0', 'x', '0', 'x', '1', '0']) = some (some 16) := by
  have hstrip : ∀ s : List Char, stripAll0x ('0' :: 'x' :: s) = stripAll0x s := by
    intro s
    simp [stripAll0x]
  refine ⟨?_, rfl, rfl, rfl⟩
  intro s
  refine ⟨?_, ?_, ?_⟩ <;> simp [readAddress, writeAddress, parse_address, hstrip]

/-- Claim C5: parse_value_type succeeds exactly on the six keywords
u32, i32, u64, i64, string, hex compared case-insensitively, returning
the corresponding variant of the six-variant sum type, and fails with
an error on every other string. -/
theorem C5_parse_value_type_closed :
    ∀ s : List Char,
      (parse_value_type s = .ok .U32 ↔ caseEq s ['u', '3', '2']) ∧
      (parse_value_type s = .ok .I32 ↔ caseEq s ['i', '3', '2']) ∧
      (parse_value_type s = .ok .U64 ↔ caseEq s ['u', '6', '4']) ∧
      (parse_value_type s = .ok .I64 ↔ caseEq s ['i', '6', '4']) ∧
      (parse_value_type s = .ok .String ↔ caseEq s ['s', 't', 'r', 'i', 'n', 'g']) ∧
      (parse_value_type s = .ok .Hex ↔ caseEq s ['h', 'e', 'x']) ∧
      (parse_value_type s = .error .InvalidValue ↔
        ¬ (caseEq s ['u', '3', '2'] ∨ caseEq s ['i', '3', '2'] ∨
           caseEq s ['u', '6', '4'] ∨ caseEq s ['i', '6', '4'] ∨
           caseEq s ['s', 't', 'r', 'i', 'n', 'g'] ∨ caseEq s ['h', 'e', 'x'])) := by
  intro s
  have k1 : lowerStr ['u', '3', '2'] = ['u', '3', '2'] := by decide
  have k2 : lowerStr ['i', '3', '2'] = ['i', '3', '2'] := by decide
  have k3 : lowerStr ['u', '6', '4'] = ['u', '6', '4'] := by decide
  have k4 : lowerStr ['i', '6', '4'] = ['i', '6', '4'] := by decide
  have k5 : lowerStr ['s', 't', 'r', 'i', 'n', 'g'] = ['s', 't', 'r', 'i', 'n', 'g'] := by decide
  have k6 : lowerStr ['h', 'e', 'x'] = ['h', 'e', 'x'] := by decide
  unfold caseEq
  rw [k1, k2, k3, k4, k5, k6]
  unfold parse_value_type
  split_ifs with h1 h2 h3 h4 h5 h6 <;> simp_all

/-- Claim C6: with the size argument omitted, the read length for a
fixed-width numeric type is exactly that fixed width: 4 bytes for
U32/I32 and 8 bytes for U64/I64. -/
theorem C6_numeric_read_size_default :
    read_size none .U32 = 4 ∧ read_size none .I32 = 4 ∧
    read_size none .U64 = 8 ∧ read_size none .I64 = 8 ∧
    (∀ t w, fixed_width t = some w → read_size none t = w) := by
  refine ⟨rfl, rfl, rfl, rfl, ?_⟩
  intro t w hw
  cases t <;> simp [fixed_width] at hw <;> simp [read_size, hw]

/-- Witness for C6 discharging the fixed-width hypothesis at U64. -/
theorem C6_numeric_read_size_default_witness :
    read_size none .U64 = 8 :=
  C6_numeric_read_size_default.2.2.2.2 .U64 8 rfl

/-- Claim C10: with the size argument omitted and a variable-length
type (String or Hex), the read length silently defaults to 32 bytes. -/
theorem C10_variable_read_size_default :
    read_size none .String = 32 ∧ read_size none .Hex = 32 ∧
    (∀ t, fixed_width t = none → read_size none t = 32) := by
  refine ⟨rfl, rfl, ?_⟩
  intro t ht
  cases t <;> simp [fixed_width] at ht <;> rfl

/-- Witness for C10 discharging the fixed-width hypothesis at Hex. -/
theorem C10_variable_read_size_default_witness :
    read_size none .Hex = 32 :=
  C10_variable_read_size_default.2.2 .Hex rfl

/-! ### Helper lemmas: scan engine -/

theorem mem_scanBuffer {buf pat : List Nat} {i : Nat} :
    i ∈ scanBuffer buf pat ↔
      i + pat.length ≤ buf.length ∧ (buf.drop i).take pat.length = pat := by
  unfold scanBuffer
  rw [List.mem_filter, List.mem_range]
  simp only [beq_iff_eq]
  constructor
  · rintro ⟨hr, he⟩
    have hlen := congrArg List.length he
    simp only [List.length_take, List.length_drop] at hlen
    refine ⟨?_, he⟩
    omega
  · rintro ⟨hle, he⟩
    exact ⟨by omega, he⟩

theorem scanBuffer_pairwise (buf pat : List Nat) :
    (scanBuffer buf pat).Pairwise (· < ·) :=
  (List.pairwise_lt_range _).filter _

theorem regionHits_map_address (pat : List Nat) (r : MemRegion) (buf : List Nat) :
    (regionHits pat r buf).map ScanHit.address =
      (scanBuffer buf pat).map (fun i => r.start + i) := by
  unfold regionHits
  rw [List.map_map]
  rfl

theorem scanRegions_cons (pat : List Nat) (rf : MemRegion → Except CoreError (List Nat))
    (r : MemRegion) (rs : List MemRegion) :
    scanRegions pat rf (r :: rs) =
      (match rf r with
        | .error _ => []
        | .ok buf => regionHits pat r buf) ++ scanRegions pat rf rs := by
  unfold scanRegions
  rw [List.flatMap_cons]

theorem mem_scanRegions {pat : List Nat} {rf : MemRegion → Except CoreError (List Nat)}
    {rs : List MemRegion} {h : ScanHit} (hm : h ∈ scanRegions pat rf rs) :
    ∃ r ∈ rs, ∃ buf, rf r = .ok buf ∧ ∃ i ∈ scanBuffer buf pat, h.address = r.start + i := by
  unfold scanRegions at hm
  rw [List.mem_flatMap] at hm
  obtain ⟨r, hr, hmem⟩ := hm
  refine ⟨r, hr, ?_⟩
  cases hrf : rf r with
  | error e =>
    rw [hrf] at hmem
    simp at hmem
  | ok buf =>
    rw [hrf] at hmem
    refine ⟨buf, rfl, ?_⟩
    unfold regionHits at hmem
    rw [List.mem_map] at hmem
    obtain ⟨i, hi, hh⟩ := hmem
    exact ⟨i, hi, by rw [← hh]⟩

theorem scanRegions_sorted (pat : List Nat) (rf : MemRegion → Except CoreError (List Nat)) :
    ∀ rs : List MemRegion, pat ≠ [] →
      rs.Pairwise (fun a b => a.start + a.size ≤ b.start) →
      (∀ r ∈ rs, ∀ buf, rf r = .ok buf → buf.length = r.size) →
      ((scanRegions pat rf rs).map ScanHit.address).Pairwise (· < ·) := by
  intro rs hpat
  induction rs with
  | nil =>
    intro _ _
    simp [scanRegions]
  | cons r rs ih =>
    intro hpw hlen
    rw [List.pairwise_cons] at hpw
    rw [scanRegions_cons, List.map_append, List.pairwise_append]
    refine ⟨?_, ih hpw.2 (fun x hx => hlen x (by simp [hx])), ?_⟩
    · cases hrf : rf r with
      | error e => simp
      | ok buf =>
        rw [regionHits_map_address]
        exact (scanBuffer_pairwise buf pat).map _ (fun a b hab => by omega)
    · intro a ha b hb
      cases hrf : rf r with
      | error e =>
        rw [hrf] at ha
        simp at ha
      | ok buf =>
        rw [hrf, regionHits_map_address, List.mem_map] at ha
        obtain ⟨i, hi, rfl⟩ := ha
        have hmem := mem_scanBuffer.mp hi
        have hblen : buf.length = r.size := hlen r (by simp) buf hrf
        have hplen : 1 ≤ pat.length := by
          cases pat
          · exact absurd rfl hpat
          · simp
        rw [List.mem_map] at hb
        obtain ⟨x, hx, rfl⟩ := hb
        obtain ⟨r2, hr2, buf2, hrf2, i2, hi2, haddr2⟩ := mem_scanRegions hx
        have hsep := hpw.1 r2 hr2
        rw [haddr2]
        omega

/-- Claim C7: the scan search is exhaustive over every byte offset with
overlapping matches allowed and no alignment restriction, results come
out in ascending address order, and the synthetic buffer
01 02 03 02 03 04 scanned for 02 03 yields exactly offsets 1 and 3 in
that order. -/
theorem C7_scan_exhaustive_overlapping_ordered :
    (∀ buf pat i, i ∈ scanBuffer buf pat ↔
      i + pat.length ≤ buf.length ∧ (buf.drop i).take pat.length = pat) ∧
    (∀ buf pat, (scanBuffer buf pat).Pairwise (· < ·)) ∧
    (∀ (pat : List Nat) (rf : MemRegion → Except CoreError (List Nat))
        (rs : List MemRegion), pat ≠ [] →
      rs.Pairwise (fun a b => a.start + a.size ≤ b.start) →
      (∀ r ∈ rs, ∀ buf, rf r = .ok buf → buf.length = r.size) →
      ((scanRegions pat rf rs).map ScanHit.address).Pairwise (· < ·)) ∧
    scanBuffer [1, 2, 3, 2, 3, 4] [2, 3] = [1, 3] :=
  ⟨fun _ _ _ => mem_scanBuffer, scanBuffer_pairwise,
   fun pat rf rs h1 h2 h3 => scanRegions_sorted pat rf rs h1 h2 h3, rfl⟩

/-- Witness for C7 on a one-region scan of the synthetic buffer. -/
theorem C7_scan_exhaustive_overlapping_ordered_witness :
    ((scanRegions [2, 3] (fun _ => .ok [1, 2, 3, 2, 3, 4])
        [⟨0, 6, [Perm.Read]⟩]).map ScanHit.address).Pairwise (· < ·) :=
  C7_scan_exhaustive_overlapping_ordered.2.2.1 [2, 3]
    (fun _ => .ok [1, 2, 3, 2, 3, 4]) [⟨0, 6, [Perm.Read]⟩]
    (by decide)
    (by simp)
    (by
      intro r hr buf hb
      simp only [List.mem_singleton] at hr
      subst hr
      injection hb with h
      rw [← h]
      rfl)

/-- Claim C8: an enumeration error or an InvalidValue from encoding the
target aborts the whole scan with no partial results, while per-region
read failures are swallowed: even when every region fails to read the
scan still succeeds with zero results. -/
theorem C8_scan_error_policy :
    (∀ (e : CoreError) (pat : List Nat) (rf : MemRegion → Except CoreError (List Nat))
        (lo hi : Option Nat), pat ≠ [] →
      scanModel (.ok pat) (.error e) rf lo hi = .error e) ∧
    (∀ (regions : Except CoreError (List MemRegion))
        (rf : MemRegion → Except CoreError (List Nat)) (lo hi : Option Nat),
      scanModel (.error .InvalidValue) regions rf lo hi = .error .InvalidValue) ∧
    (∀ (pat : List Nat) (rs : List MemRegion)
        (rf : MemRegion → Except CoreError (List Nat)) (lo hi : Option Nat), pat ≠ [] →
      (∀ r, ∃ e, rf r = .error e) →
      scanModel (.ok pat) (.ok rs) rf lo hi = .ok []) := by
  refine ⟨?_, ?_, ?_⟩
  · intro e pat rf lo hi hpat
    have hne : pat.isEmpty = false := by
      cases pat
      · exact absurd rfl hpat
      · rfl
    simp [scanModel, hne]
  · intro regions rf lo hi
    rfl
  · intro pat rs rf lo hi hpat hfail
    have hne : pat.isEmpty = false := by
      cases pat
      · exact absurd rfl hpat
      · rfl
    simp only [scanModel, hne, Bool.false_eq_true, if_false]
    have hnil : scanRegions pat rf (eligibleRegions lo hi rs) = [] := by
      unfold scanRegions
      rw [List.flatMap_eq_nil_iff]
      intro r hr
      obtain ⟨e, he⟩ := hfail r
      rw [he]
    rw [hnil]

/-- Witness for C8 at concrete scans whose reads all fail. -/
theorem C8_scan_error_policy_witness :
    scanModel (.ok [1]) (.error .ProcessNotFound)
        (fun _ => .error .AddressOutOfRange) none none = .error .ProcessNotFound ∧
    scanModel (.error .InvalidValue) (.ok [])
        (fun _ => .error .AddressOutOfRange) none none = .error .InvalidValue ∧
    scanModel (.ok [1]) (.ok [⟨0, 4, [Perm.Read]⟩])
        (fun _ => .error .AddressOutOfRange) none none = .ok [] :=
  ⟨C8_scan_error_policy.1 .ProcessNotFound [1] _ none none (by decide),
   C8_scan_error_policy.2.1 (.ok []) _ none none,
   C8_scan_error_policy.2.2 [1] [⟨0, 4, [Perm.Read]⟩] _ none none (by decide)
     (fun _ => ⟨.AddressOutOfRange, rfl⟩)⟩

